import Mathlib

/-!
Verification of the chirun course-builder core: the polymorphic item tree
(`makeCourse/item.py`), the course loading and processing pipeline and the
URL arithmetic (`chirun/cli.py`).  Python strings are modelled as `List Char`,
Python dicts as insertion-ordered association lists, and the item tree as a
heap of nodes addressed by allocation index, which models Python object
identity and the mutable `parent` back-references faithfully.
-/

abbrev Str := List Char

/-- YAML-ish values: the value universe of the dicts the item code builds. -/
inductive YVal where
  | s (v : Str)
  | n (v : Int)
  | b (v : Bool)
  | arr (vs : List YVal)
  | dict (d : List (Str × YVal))
  | null

instance : Inhabited YVal := ⟨YVal.null⟩

abbrev YDict := List (Str × YVal)

/-- Python `d[k]` lookup (as an `Option`): first matching key. -/
def dget : YDict → Str → Option YVal
  | [], _ => none
  | (k1, v) :: d, k => if k1 = k then some v else dget d k

/-- Python `d[k] = v`: replace the value in place if the key is present,
otherwise append the new pair at the end (insertion order). -/
def dset : YDict → Str → YVal → YDict
  | [], k, v => [(k, v)]
  | (k1, v1) :: d, k, v => if k1 = k then (k1, v) :: d else (k1, v1) :: dset d k v

/-- Python `d.update(u)`: `d[k] = v` for each pair of `u` in order. -/
def dupdate (d : YDict) (u : YDict) : YDict :=
  u.foldl (fun acc kv => dset acc kv.1 kv.2) d

/-- Python `del d[k]` on a dict (keys are unique): drop the first pair with
that key. -/
def removeKey : YDict → Str → YDict
  | [], _ => []
  | (k1, v1) :: d, k => if k1 = k then d else (k1, v1) :: removeKey d k

/-- Modelled from the spec: `slugify` lives in the `makeCourse` helper module,
which is not under `src/`.  The spec describes it as a deterministic
URL/path-safe transform of the title, with `Intro` becoming `intro` and a part
titled like `Unit 1` becoming `unit-1`: lowercase the title and turn spaces
into hyphens. -/
def slugify (t : Str) : Str :=
  t.map (fun c => if c = ' ' then '-' else c.toLower)

/-- The `type` discriminants registered in `item_types` in `makeCourse/item.py`. -/
inductive IType where
  | introduction
  | part
  | chapter
  | url
  | slides
  | recap
deriving DecidableEq

/-- One loaded item object: the fields `Item.__init__` sets.  `parent` and
`content` are heap indices (Python object references). -/
structure Node where
  ty : IType
  title : Str
  source : Str
  hidden : Bool
  parent : Option Nat
  content : List Nat
deriving DecidableEq

def defaultNode : Node :=
  { ty := IType.chapter, title := [], source := [], hidden := false,
    parent := none, content := [] }

abbrev Heap := List Node

/-- Dereference a heap index (attribute access on a Python object reference).
Out-of-range indices never occur for heaps built by the loader. -/
def nodeAt (h : Heap) (i : Nat) : Node := (h[i]?).getD defaultNode

/-- `self.slug = slugify(self.title)` set in `Item.__init__`. -/
def slugOf (n : Node) : Str := slugify n.title

/-- Modelled from the spec: `Chirun.load_structure` reads `item.is_index`,
declared in the `chirun` item module which is not under `src/`.  The spec says
the loader scans for "any item with type introduction", the type that produces
the index page, so `is_index` holds exactly of introduction items. -/
def is_index (n : Node) : Bool := decide (n.ty = IType.introduction)

/-- A declarative course-structure record (the `data` mapping passed to
`load_item`): `type`, optional `title`, `source`, `hidden`, and child
records under `content`. -/
inductive ItemData where
  | mk (ty : Str) (title : Option Str) (source : Option Str)
       (hidden : Option Bool) (content : List ItemData)

def ItemData.ty : ItemData → Str
  | .mk t _ _ _ _ => t

def ItemData.title : ItemData → Option Str
  | .mk _ t _ _ _ => t

def ItemData.source : ItemData → Option Str
  | .mk _ _ s _ _ => s

def ItemData.hidden : ItemData → Option Bool
  | .mk _ _ _ hd _ => hd

def ItemData.content : ItemData → List ItemData
  | .mk _ _ _ _ c => c

/-- The class-level `title` defaults of the concrete `Item` subclasses. -/
def defaultTitle : IType → Str
  | IType.introduction => "index".toList
  | IType.part => "Untitled part".toList
  | IType.chapter => "Untitled chapter".toList
  | IType.url => "Untitled URL".toList
  | IType.slides => "Untitled Slides".toList
  | IType.recap => "Untitled Recap".toList

/-- Python errors the embedded code can raise. -/
inductive PyErr where
  | nameError (n : Str)
  | keyError (k : Str)
  | ioError
deriving DecidableEq

/-- `item_types[data['type']]`: the registry lookup in `load_item`; an unknown
discriminant raises `KeyError`. -/
def typeOfString (s : Str) : Except PyErr IType :=
  if s = "introduction".toList then .ok IType.introduction
  else if s = "part".toList then .ok IType.part
  else if s = "chapter".toList then .ok IType.chapter
  else if s = "url".toList then .ok IType.url
  else if s = "slides".toList then .ok IType.slides
  else if s = "recap".toList then .ok IType.recap
  else .error (.keyError s)

/-- The object `Item.__init__` builds: `title`, `source` and `hidden` fall
back to the class defaults (`data.get`), `parent` is stored, and `content`
holds the child references. -/
def mkNode (ty : IType) (ti so : Option Str) (hid : Option Bool)
    (p : Option Nat) (cids : List Nat) : Node :=
  { ty := ty, title := ti.getD (defaultTitle ty), source := so.getD [],
    hidden := hid.getD false, parent := p, content := cids }

mutual
/-- `load_item(course, data, parent)` together with `Item.__init__`: look the
class up by `data['type']`, create the object (allocated at the next heap
index, child list still empty), then load the `content` sub-records with the
new object as their parent, and store the resulting child references on the
object. -/
def loadItemH (h : Heap) (d : ItemData) (p : Option Nat) :
    Except PyErr (Heap × Nat) :=
  match d with
  | .mk tys ti so hid content =>
    match typeOfString tys with
    | .error e => .error e
    | .ok ty =>
      match loadItemsH (h ++ [mkNode ty ti so hid p []]) content (some h.length) with
      | .error e => .error e
      | .ok (h1, cids) =>
        .ok (h1.set h.length (mkNode ty ti so hid p cids), h.length)

/-- The list comprehension `[load_item(course, obj, self) for obj in
self.data.get('content', [])]`, threading the heap left to right. -/
def loadItemsH (h : Heap) (ds : List ItemData) (p : Option Nat) :
    Except PyErr (Heap × List Nat) :=
  match ds with
  | [] => .ok (h, [])
  | d :: rest =>
    match loadItemH h d p with
    | .error e => .error e
    | .ok (h1, r) =>
      match loadItemsH h1 rest p with
      | .error e => .error e
      | .ok (h2, rs) => .ok (h2, r :: rs)
end

/-- The record `{'type': 'introduction'}` synthesized in `load_structure`. -/
def introData : ItemData := .mk ("introduction".toList) none none none []

/-- `Chirun.load_structure`: load every record of `config['structure']` at the
top level (no parent), then, if no loaded item `is_index`, synthesize an
introduction item with default data and append it. -/
def load_structure (recs : List ItemData) : Except PyErr (Heap × List Nat) :=
  match loadItemsH [] recs none with
  | .error e => .error e
  | .ok (h, ids) =>
    if ids.any (fun i => is_index (nodeAt h i)) then .ok (h, ids)
    else
      match loadItemH h introData none with
      | .error e => .error e
      | .ok (h2, j) => .ok (h2, ids ++ [j])

/-- `Item.out_path` with the `Part` and `Introduction` overrides:
`Part.out_path` is always one level, `Introduction` carries the fixed class
attribute `['index']`, and every other variant uses the base rule,
`[parent.slug, slug]` with a parent and `[slug]` without. -/
def out_path (h : Heap) (i : Nat) : List Str :=
  let n := nodeAt h i
  match n.ty with
  | IType.part => [slugOf n]
  | IType.introduction => ["index".toList]
  | _ =>
    match n.parent with
    | some p => [slugOf (nodeAt h p), slugOf n]
    | none => [slugOf n]

/-- `Item.url`: `'/'.join(self.out_path)`. -/
def urlOf (h : Heap) (i : Nat) : Str := List.intercalate ("/".toList) (out_path h i)

/-- The course-wide context the item code reads: the config values
`Item.yaml` looks up, the theme descriptors, the top-level structure, and the
out-of-scope collaborators of `get_content` (the filesystem, `burnInExtras`
and the LaTeX loader) as explicit inputs. -/
structure Course where
  author : YVal
  code : YVal
  year : YVal
  themeYaml : YVal
  altThemesYaml : YVal
  build_pdf : YVal
  structure_ : List Nat
  root_dir : Str
  files : List (Str × Str)
  burnInExtras : Str → Bool → Str → Str
  latexContent : Nat → Except PyErr Str

/-- `Item.yaml(active)`: the base metadata mapping, with the `active` marker
appended when `active` is set. -/
def itemYaml (c : Course) (n : Node) (active : Bool) : YDict :=
  [("title".toList, YVal.s n.title),
   ("author".toList, c.author),
   ("code".toList, c.code),
   ("year".toList, c.year),
   ("slug".toList, YVal.s (slugOf n)),
   ("theme".toList, c.themeYaml),
   ("alt_themes".toList, c.altThemesYaml)]
  ++ (if active then [("active".toList, YVal.n 1)] else [])

/-- The `item_yaml.update({...})` argument of `Chapter.yaml`. -/
def chapterExtras (c : Course) (h : Heap) (i : Nat) : YDict :=
  [("build_pdf".toList, c.build_pdf),
   ("file".toList, YVal.s (urlOf h i ++ ".html".toList)),
   ("pdf".toList, YVal.s (urlOf h i ++ ".pdf".toList)),
   ("sidebar".toList, YVal.b true)]

/-- `Chapter.yaml(active)`: the base mapping updated with the chapter extras. -/
def chapterYaml (c : Course) (h : Heap) (i : Nat) (active : Bool) : YDict :=
  dupdate (itemYaml c (nodeAt h i) active) (chapterExtras c h i)

/-- `Slides.yaml(active)`: `Chapter.yaml` updated with the slides outputs. -/
def slidesYaml (c : Course) (h : Heap) (i : Nat) (active : Bool) : YDict :=
  dupdate (chapterYaml c h i active)
    [("file".toList, YVal.s (urlOf h i ++ ".html".toList)),
     ("slides".toList, YVal.s (urlOf h i ++ ".slides.html".toList)),
     ("pdf".toList, YVal.s (urlOf h i ++ ".pdf".toList)),
     ("sidebar".toList, YVal.b true)]

/-- `Recap.yaml(active)`: `Chapter.yaml` updated with `build_pdf: False` and
`sidebar: False`. -/
def recapYaml (c : Course) (h : Heap) (i : Nat) (active : Bool) : YDict :=
  dupdate (chapterYaml c h i active)
    [("build_pdf".toList, YVal.b false),
     ("file".toList, YVal.s (urlOf h i ++ ".html".toList)),
     ("sidebar".toList, YVal.b false)]

/-- `Url.yaml(active)`: only `title` and `external_url`, without calling the
base method and ignoring `active`. -/
def urlYaml (n : Node) : YDict :=
  [("title".toList, YVal.s n.title),
   ("external_url".toList, YVal.s n.source)]

/-- The dynamic dispatch of `item.yaml(active)` over the item variants.
`Part.yaml` recurses into the visible children, so the recursion is fuelled;
any fuel at least the tree height computes the Python value. -/
def yamlOf : Nat → Course → Heap → Nat → Bool → YDict
  | 0, _, _, _, _ => []
  | fuel + 1, c, h, i, active =>
    let n := nodeAt h i
    match n.ty with
    | IType.url => urlYaml n
    | IType.introduction => itemYaml c n active
    | IType.part =>
      dupdate (itemYaml c n active)
        [("part-slug".toList, YVal.s (slugOf n)),
         ("chapters".toList, YVal.arr
           ((n.content.filter (fun j => !(nodeAt h j).hidden)).map
             (fun j => YVal.dict (yamlOf fuel c h j false))))]
    | IType.chapter => chapterYaml c h i active
    | IType.slides => slidesYaml c h i active
    | IType.recap => recapYaml c h i active

/-- The header mapping `Chapter.markdown` builds before serializing it: the
item yaml, then `part`, `part-slug` and the sibling `chapters` list (current
item active, by object identity) when the chapter has a parent, else the
top-level `chapters` list excluding introduction items. -/
def chapterMarkdownHeader (fuel : Nat) (c : Course) (h : Heap) (i : Nat) : YDict :=
  let n := nodeAt h i
  let header := yamlOf fuel c h i false
  match n.parent with
  | some p =>
    let pn := nodeAt h p
    dset (dset (dset header ("part".toList) (YVal.s pn.title))
        ("part-slug".toList) (YVal.s (slugOf pn)))
      ("chapters".toList)
      (YVal.arr ((pn.content.filter (fun j => !(nodeAt h j).hidden)).map
        (fun j => YVal.dict (yamlOf fuel c h j (j == i)))))
  | none =>
    dset header ("chapters".toList)
      (YVal.arr ((c.structure_.filter (fun j =>
          decide (¬(nodeAt h j).ty = IType.introduction) && !(nodeAt h j).hidden)).map
        (fun j => YVal.dict (yamlOf fuel c h j (j == i)))))

/-- `os.path.basename`: the part after the last separator. -/
def basenameL (s : Str) : Str :=
  s.foldl (fun acc c => if c = '/' then [] else acc ++ [c]) []

/-- The suffix starting at the last dot of the list, or `[]` if there is no
dot. -/
def lastExt : Str → Str
  | [] => []
  | c :: tl =>
    let e := lastExt tl
    if e.isEmpty then (if c = '.' then c :: tl else []) else e

/-- `os.path.splitext(p)[1]`: the extension of the basename, where leading
dots of the basename do not start an extension. -/
def pyExt (s : Str) : Str :=
  let b := basenameL s
  lastExt (b.dropWhile (fun c => c = '.'))

/-- `os.path.join(a, b)` for one relative or absolute component. -/
def pyPathJoin (a b : Str) : Str :=
  if b.head? = some '/' then b
  else if a = [] then b
  else if a.getLast? = some '/' then a ++ b else a ++ '/' :: b

/-- The scan of the lazy `.*?---\n` part of the front-matter pattern: at each
position first try the closing `---` plus newline, else let `.` consume one
character.  Without DOTALL (`dotall = false`) `.` does not match a newline and
the scan fails at the first newline. -/
def findFMClose (dotall : Bool) : Str → Option Str
  | '-' :: '-' :: '-' :: '\n' :: rest => some rest
  | c :: rest => if dotall ∨ ¬c = '\n' then findFMClose dotall rest else none
  | [] => none

/-- The call `re.sub(r'^---.*?---\n', '', mdContents, re.S)` in
`Item.get_content`.  `re.S` is passed positionally, so it lands in the `count`
parameter and the DOTALL flag is NOT in effect; `dotall` makes the flag
explicit so both readings can be compared.  Since `^` only matches at the
start of the string (no MULTILINE), at most one replacement happens, at
position 0, whatever the count. -/
def reSubFrontMatter (dotall : Bool) (s : Str) : Str :=
  match s with
  | '-' :: '-' :: '-' :: rest =>
    match findFMClose dotall rest with
    | some rem => rem
    | none => s
  | _ => s

/-- `Item.get_content(force_local, out_format)`: dispatch on the source
extension.  `.md` reads the file, conditionally strips front matter and
applies `burnInExtras`; `.tex` delegates to the LaTeX loader; any other
extension evaluates the unbound name `ch` while formatting the error message,
so Python raises `NameError` before the intended exception is built. -/
def get_content (c : Course) (h : Heap) (i : Nat) (force_local : Bool)
    (out_format : Str) : Except PyErr Str :=
  let n := nodeAt h i
  let ext := pyExt n.source
  if ext = ".md".toList then
    match (c.files.find? (fun f => decide (f.1 = pyPathJoin c.root_dir n.source))).map
        (fun f => f.2) with
    | none => .error PyErr.ioError
    | some mdContents =>
      let stripped :=
        if mdContents.take 3 = "---".toList then reSubFrontMatter false mdContents
        else mdContents
      .ok (c.burnInExtras stripped force_local out_format)
  else if ext = ".tex".toList then c.latexContent i
  else .error (PyErr.nameError ("ch".toList))

/-- The build-context state `make_relative_url` and `get_web_root` read.
`build_root` stands for `str(self.get_build_dir().resolve()) + '/'` and
`root_url` for the configured or synthesized `root_url` template with its
placeholders filled in; both are environment inputs here (path resolution and
config-template formatting are out of core scope). -/
structure ChirunCtx where
  absolute : Bool
  force_relative_build : Bool
  force_theme : Option Str
  build_root : Str
  root_url : Str

/-- `Chirun.get_web_root`: the resolved build directory when the build is not
absolute (or a relative build is forced), else the formatted `root_url`. -/
def get_web_root (ctx : ChirunCtx) : Str :=
  if !ctx.absolute ∨ ctx.force_relative_build then ctx.build_root else ctx.root_url

/-- Python slice `s[:i]` with a possibly negative bound. -/
def pyTake (s : Str) (i : Int) : Str :=
  if i < 0 then s.take (s.length - min s.length i.natAbs) else s.take i.toNat

/-- Python slice `s[i:]` with a possibly negative bound. -/
def pyDrop (s : Str) (i : Int) : Str :=
  if i < 0 then s.drop (s.length - min s.length i.natAbs) else s.drop i.toNat

/-- `'/'.join(['..'] * k)`. -/
def dotsJoin (k : Nat) : Str :=
  List.intercalate ("/".toList) (List.replicate k ("..".toList))

/-- `Chirun.make_relative_url(item, url)`.  In absolute mode the root is
prepended unless the URL already starts with the root minus its leading
slash, in which case a single leading slash is prepended.  In relative mode
the same prefix test decides whether the root is stripped, then `../` is
prepended once per level, where `levels = len(item.out_file.parents) - 1`;
`out_file` joins `out_path` with the path separator, so the count of its
parents is the length of `out_path`.  A forced theme inserts its path after
`levels + 1` ups. -/
def make_relative_url (ctx : ChirunCtx) (h : Heap) (i : Nat) (url : Str) : Str :=
  let root := get_web_root ctx
  if ctx.absolute then
    if ¬pyTake url ((root.length : Int) - 1) = pyDrop root 1 then root ++ url
    else '/' :: url
  else
    let levels := (out_path h i).length - 1
    let url1 :=
      if pyTake url ((root.length : Int) - 1) = pyDrop root 1 then
        pyDrop url ((root.length : Int) - 1)
      else url
    match ctx.force_theme with
    | some tp => dotsJoin (levels + 1) ++ '/' :: tp ++ '/' :: url1
    | none => if 0 < levels then dotsJoin levels ++ '/' :: url1 else url1

/-- A processor as the pipeline sees it: a name and a run count.  The
processor classes live in the `process` module, which is not under `src/`. -/
structure Proc where
  name : Str
  num_runs : Nat

/-- One flat pass of a processor over the top-level structure: the innermost
loop `for item in self.structure: processor.visit(item)`, recorded as one
trace event `(processor index, item id)` per visit. -/
def runPass (pidx : Nat) (struct : List Nat) : List (Nat × Nat) :=
  struct.map (fun i => (pidx, i))

/-- The runs loop `for n in range(processor.num_runs)`: `num_runs` full
passes over the structure. -/
def procVisits (pidx : Nat) (p : Proc) (struct : List Nat) : List (Nat × Nat) :=
  (List.range p.num_runs).flatMap (fun _ => runPass pidx struct)

/-- The outer loop of `Chirun.process` over the instantiated processors, in
order, starting at processor index `pidx`. -/
def processTraceAux (pidx : Nat) : List Proc → List Nat → List (Nat × Nat)
  | [], _ => []
  | p :: ps, struct => procVisits pidx p struct ++ processTraceAux (pidx + 1) ps struct

/-- The visit trace of `Chirun.process`: which processor visits which
top-level item, in execution order. -/
def processTrace (procs : List Proc) (struct : List Nat) : List (Nat × Nat) :=
  processTraceAux 0 procs struct

/-- Modelled from the spec: `Chirun.processor_classes` names five processor
classes defined in the `process` module, which is not under `src/`, in the
fixed order slug-collision detector, staleness tracker, PDF build (the one
pass that may run more than once), notebook extraction, render.  Run counts
other than the PDF one are single passes. -/
def processor_classes (pdfRuns : Nat) : List Proc :=
  [⟨"slug_collision".toList, 1⟩,
   ⟨"last_built".toList, 1⟩,
   ⟨"pdf".toList, pdfRuns⟩,
   ⟨"notebook".toList, 1⟩,
   ⟨"render".toList, 1⟩]

/-- The inverse of `typeOfString`: the `type` attribute string of a class. -/
def typeName : IType → Str
  | IType.introduction => "introduction".toList
  | IType.part => "part".toList
  | IType.chapter => "chapter".toList
  | IType.url => "url".toList
  | IType.slides => "slides".toList
  | IType.recap => "recap".toList

/-- Modelled from the spec: `item.content_tree()`, called by `save_manifest`,
is declared in the `chirun` item module which is not under `src/`.  The spec
says the manifest serializes "a structure mirroring the original declarative
config but reflecting any items synthesized or mutated during the build", so
each item becomes its declarative record again, with children recursively
under `content`. -/
def content_tree (fuel : Nat) (h : Heap) (i : Nat) : YVal :=
  match fuel with
  | 0 => YVal.null
  | fuel + 1 =>
    let n := nodeAt h i
    YVal.dict
      [("type".toList, YVal.s (typeName n.ty)),
       ("title".toList, YVal.s n.title),
       ("source".toList, YVal.s n.source),
       ("hidden".toList, YVal.b n.hidden),
       ("content".toList, YVal.arr (n.content.map (fun j => content_tree fuel h j)))]

/-- Python `del d[k]`: `KeyError` when the key is absent. -/
def pyDelKey (d : YDict) (k : Str) : Except PyErr YDict :=
  if (dget d k).isSome then .ok (removeKey d k) else .error (.keyError k)

/-- The realized top-level structure written into the manifest:
`[item.content_tree() for item in self.structure]`. -/
def realizedStructure (h : Heap) (struct : List Nat) : YVal :=
  YVal.arr (struct.map (fun i => content_tree h.length h i))

/-- The effect of `Chirun.save_manifest` on the shared config mapping:
`manifest` aliases `self.config`, so the update of `structure` and the two
`del` statements mutate the course config itself; the file writes are out of
scope.  The returned dict is the config as the method leaves it. -/
def save_manifest (config : YDict) (h : Heap) (struct : List Nat) :
    Except PyErr YDict :=
  let m := dset config ("structure".toList) (realizedStructure h struct)
  match pyDelKey m ("args".toList) with
  | .error e => .error e
  | .ok m1 =>
    match pyDelKey m1 ("static_dir".toList) with
    | .error e => .error e
    | .ok m2 => .ok m2

/-- A concrete course context used by the concrete evaluations below. -/
def cEx : Course :=
  { author := YVal.s ("A".toList), code := YVal.s ("MAS".toList),
    year := YVal.n 2020, themeYaml := YVal.null, altThemesYaml := YVal.null,
    build_pdf := YVal.b true, structure_ := [], root_dir := ("course".toList),
    files := [(("course/a.md".toList), ("---\ntitle: x\n---\nBody".toList))],
    burnInExtras := fun s _ _ => s,
    latexContent := fun _ => .error PyErr.ioError }

/-- The Markdown source of the front-matter test: `---\ntitle: x\n---\nBody`. -/
def fmText : Str := "---\ntitle: x\n---\nBody".toList

/-- A single chapter whose source is the Markdown file above. -/
def hMd : Heap :=
  [{ ty := IType.chapter, title := ("A".toList), source := ("a.md".toList),
     hidden := false, parent := none, content := [] }]

/-- C1: `get_content` does NOT strip the YAML front matter of a Markdown
source that begins with the delimiter.  `re.S` is passed to `re.sub` as the
`count` argument instead of `flags`, so without DOTALL the pattern
`^---.*?---\n` cannot cross the newline after the opening delimiter and never
matches a multi-line front-matter block: the file text comes back whole, with
both delimiters still in place, and only then goes through `burnInExtras`.
With the DOTALL flag actually in effect the same text would reduce to `Body`,
which is what the log message announcing the merge intends. -/
theorem get_content_frontmatter_retained :
    get_content cEx hMd 0 false ("html".toList) = .ok fmText
    ∧ ¬fmText = ("Body".toList)
    ∧ reSubFrontMatter true fmText = ("Body".toList) :=
  ⟨rfl, by decide, rfl⟩

/-- A single item whose source has a `.txt` extension. -/
def hTxt : Heap :=
  [{ ty := IType.chapter, title := ("Notes".toList), source := ("notes.txt".toList),
     hidden := false, parent := none, content := [] }]

/-- C6: on a source whose extension is neither `.md` nor `.tex`,
`get_content` raises `NameError` for the unbound name `ch`, because the
`raise` statement formats its message with `ch.title` and `ch.source` and no
`ch` is in scope; the intended exception naming the offending item and source
path is never built. -/
theorem get_content_unknown_ext_nameerror :
    get_content cEx hTxt 0 false ("html".toList)
      = .error (PyErr.nameError ("ch".toList)) :=
  rfl

/-- The structure record `[{type: part, content: [{type: chapter, source:
"a.md"}]}]` of the end-to-end claim. -/
def recsPartChapter : List ItemData :=
  [.mk ("part".toList) none none none
    [.mk ("chapter".toList) none (some ("a.md".toList)) none []]]

/-- The heap `load_structure` builds from `recsPartChapter`: the part, its
chapter, and the synthesized introduction. -/
def hPartChapter : Heap :=
  [{ ty := IType.part, title := ("Untitled part".toList), source := [],
     hidden := false, parent := none, content := [1] },
   { ty := IType.chapter, title := ("Untitled chapter".toList),
     source := ("a.md".toList), hidden := false, parent := some 0, content := [] },
   { ty := IType.introduction, title := ("index".toList), source := [],
     hidden := false, parent := none, content := [] }]

/-- C5: loading `[{type: part, content: [{type: chapter, source: "a.md"}]}]`
and building the chapter markdown header yields `part-slug` equal to the
part slug and a one-element `chapters` list whose single entry is the chapter
itself with the `active` marker set. -/
theorem chapter_markdown_part_slug_chapters :
    load_structure recsPartChapter = .ok (hPartChapter, [0, 2])
    ∧ dget (chapterMarkdownHeader 3 cEx hPartChapter 1) ("part-slug".toList)
        = some (YVal.s (slugOf (nodeAt hPartChapter 0)))
    ∧ slugOf (nodeAt hPartChapter 0) = ("untitled-part".toList)
    ∧ dget (chapterMarkdownHeader 3 cEx hPartChapter 1) ("chapters".toList)
        = some (YVal.arr [YVal.dict (yamlOf 3 cEx hPartChapter 1 true)])
    ∧ dget (yamlOf 3 cEx hPartChapter 1 true) ("active".toList)
        = some (YVal.n 1) :=
  ⟨rfl, rfl, rfl, rfl, rfl⟩

/-- Count of introduction-typed items among the given top-level ids. -/
def introCount (h : Heap) (ids : List Nat) : Nat :=
  ids.countP (fun i => decide ((nodeAt h i).ty = IType.introduction))

/-- The heap loaded from two introduction records. -/
def hTwoIntro : Heap :=
  [{ ty := IType.introduction, title := ("index".toList), source := [],
     hidden := false, parent := none, content := [] },
   { ty := IType.introduction, title := ("index".toList), source := [],
     hidden := false, parent := none, content := [] }]

/-- C2 counterexample: a structure with two introduction records loads to a
top-level structure with two introduction items, so "exactly one item has
type introduction" fails as a universal invariant of `load_structure`. -/
theorem load_structure_two_introductions :
    load_structure [introData, introData] = .ok (hTwoIntro, [0, 1])
    ∧ introCount hTwoIntro [0, 1] = 2
    ∧ ¬introCount hTwoIntro [0, 1] = 1 :=
  ⟨rfl, rfl, by decide⟩

/-- The relative-mode context whose web root is `/base/code/` (the resolved
build directory). -/
def ctxRel : ChirunCtx :=
  { absolute := false, force_relative_build := false, force_theme := none,
    build_root := ("/base/code/".toList), root_url := [] }

/-- The absolute-mode context whose configured root URL is `/base/code/`. -/
def ctxAbs : ChirunCtx :=
  { absolute := true, force_relative_build := false, force_theme := none,
    build_root := [], root_url := ("/base/code/".toList) }

/-- C3 counterexample: with web root `/base/code/`, relativizing the
leading-slash URL `/base/code/foo/bar.html` for the two-level chapter of
`hPartChapter` does not strip the root (the prefix test compares against the
root minus its leading slash) and prepends a single `../` (levels is
out-path depth minus one, here 1), giving `..//base/code/foo/bar.html`
rather than the claimed `../../foo/bar.html`. -/
theorem make_relative_url_slash_counterexample :
    make_relative_url ctxRel hPartChapter 1 ("/base/code/foo/bar.html".toList)
      = ("..//base/code/foo/bar.html".toList)
    ∧ ¬make_relative_url ctxRel hPartChapter 1 ("/base/code/foo/bar.html".toList)
        = ("../../foo/bar.html".toList) :=
  ⟨rfl, by decide⟩

/-- An introduction item carrying a custom title. -/
def hIntroTitled : Heap :=
  [{ ty := IType.introduction, title := ("Welcome".toList), source := [],
     hidden := false, parent := none, content := [] }]

/-- C4 counterexample: an Introduction titled `Welcome` has slug `welcome`
but `out_path` is the fixed class attribute `['index']`, so the rule
"out_path is [slug] when the item has no parent" does not hold of every
item. -/
theorem out_path_introduction_counterexample :
    out_path hIntroTitled 0 = [("index".toList)]
    ∧ slugOf (nodeAt hIntroTitled 0) = ("welcome".toList)
    ∧ ¬out_path hIntroTitled 0 = [slugOf (nodeAt hIntroTitled 0)] :=
  ⟨rfl, rfl, by decide⟩

/-- A single Url item. -/
def hUrl : Heap :=
  [{ ty := IType.url, title := ("My link".toList), source := ("http://x".toList),
     hidden := false, parent := none, content := [] }]

/-- C7 counterexample: `Url.yaml` does not call the base method: with
`active = true` it returns only `title` and `external_url`, dropping every
base field (here `author`) and adding no `active` marker, while the base
mapping for the same item carries both. -/
theorem url_yaml_drops_base_fields :
    yamlOf 1 cEx hUrl 0 true = urlYaml (nodeAt hUrl 0)
    ∧ dget (yamlOf 1 cEx hUrl 0 true) ("active".toList) = none
    ∧ dget (yamlOf 1 cEx hUrl 0 true) ("author".toList) = none
    ∧ dget (itemYaml cEx (nodeAt hUrl 0) true) ("author".toList)
        = some (YVal.s ("A".toList))
    ∧ dget (itemYaml cEx (nodeAt hUrl 0) true) ("active".toList)
        = some (YVal.n 1) :=
  ⟨rfl, rfl, rfl, rfl, rfl⟩

/-- The base fields `Item.yaml` always emits. -/
def baseKeys : List Str :=
  [("title".toList), ("author".toList), ("code".toList), ("year".toList),
   ("slug".toList), ("theme".toList), ("alt_themes".toList)]

set_option maxHeartbeats 2000000 in
/-- C7 (amended): for every item variant except Url, `yaml(active)` extends
the base mapping without removing or replacing any base field — each base
key maps to exactly the value the base `Item.yaml` gives it — and
`active = true` adds the `active` marker with value 1. -/
theorem yaml_extends_base_amended :
    ∀ (fuel : Nat) (c : Course) (h : Heap) (i : Nat) (active : Bool),
    ¬(nodeAt h i).ty = IType.url →
    (∀ k ∈ baseKeys,
      dget (yamlOf (fuel + 1) c h i active) k
        = dget (itemYaml c (nodeAt h i) active) k)
    ∧ dget (yamlOf (fuel + 1) c h i true) ("active".toList) = some (YVal.n 1) := by
  intro fuel c h i active hty
  cases hn : (nodeAt h i).ty
  case url => exact absurd hn hty
  all_goals
    refine ⟨fun k hk => ?_, by simp only [yamlOf, hn]; try rfl⟩
  all_goals
    simp only [baseKeys, List.mem_cons, List.not_mem_nil, or_false] at hk
  all_goals
    rcases hk with rfl | rfl | rfl | rfl | rfl | rfl | rfl <;>
      (simp only [yamlOf, hn]; try rfl)

/-- C7 witness: the amended yaml-layering theorem applied to the concrete
chapter of `hMd`. -/
theorem yaml_extends_base_amended_witness :
    ¬(nodeAt hMd 0).ty = IType.url
    ∧ dget (yamlOf 1 cEx hMd 0 false) ("author".toList)
        = dget (itemYaml cEx (nodeAt hMd 0) false) ("author".toList)
    ∧ dget (yamlOf 1 cEx hMd 0 true) ("active".toList) = some (YVal.n 1) :=
  ⟨by decide,
   (yaml_extends_base_amended 0 cEx hMd 0 false (by decide)).1 ("author".toList)
     (by simp [baseKeys]),
   (yaml_extends_base_amended 0 cEx hMd 0 false (by decide)).2⟩

theorem procVisits_fst_eq (k : Nat) (p : Proc) (struct : List Nat) :
    ∀ e ∈ procVisits k p struct, e.1 = k := by
  intro e he
  simp only [procVisits, runPass, List.mem_flatMap, List.mem_range,
    List.mem_map] at he
  obtain ⟨-, -, i, -, rfl⟩ := he
  rfl

theorem processTraceAux_fst_ge :
    ∀ (ps : List Proc) (k : Nat) (struct : List Nat) (e : Nat × Nat),
    e ∈ processTraceAux k ps struct → k ≤ e.1 := by
  intro ps
  induction ps with
  | nil => simp [processTraceAux]
  | cons p ps ih =>
    intro k struct e he
    rw [processTraceAux, List.mem_append] at he
    rcases he with he | he
    · exact le_of_eq (procVisits_fst_eq k p struct e he).symm
    · exact le_trans (Nat.le_succ k) (ih (k + 1) struct e he)

theorem processTraceAux_filter_eq :
    ∀ (ps : List Proc) (k pidx : Nat) (p : Proc) (struct : List Nat),
    ps[pidx]? = some p →
    (processTraceAux k ps struct).filter (fun e => e.1 == k + pidx)
      = procVisits (k + pidx) p struct := by
  intro ps
  induction ps with
  | nil => intro k pidx p struct hp; simp at hp
  | cons q ps ih =>
    intro k pidx p struct hp
    rw [processTraceAux, List.filter_append]
    cases pidx with
    | zero =>
      simp only [List.getElem?_cons_zero, Option.some.injEq] at hp
      subst hp
      rw [Nat.add_zero]
      have h1 : (procVisits k q struct).filter (fun e => e.1 == k)
          = procVisits k q struct := by
        apply List.filter_eq_self.mpr
        intro e he
        simp [procVisits_fst_eq k q struct e he]
      have h2 : (processTraceAux (k + 1) ps struct).filter (fun e => e.1 == k)
          = [] := by
        apply List.filter_eq_nil_iff.mpr
        intro e he
        have := processTraceAux_fst_ge ps (k + 1) struct e he
        simp only [beq_iff_eq]
        omega
      rw [h1, h2, List.append_nil]
    | succ n =>
      simp only [List.getElem?_cons_succ] at hp
      have h1 : (procVisits k q struct).filter (fun e => e.1 == k + (n + 1))
          = [] := by
        apply List.filter_eq_nil_iff.mpr
        intro e he
        have := procVisits_fst_eq k q struct e he
        simp only [beq_iff_eq]
        omega
      have h2 := ih (k + 1) n p struct hp
      rw [h1, List.nil_append]
      rw [show k + (n + 1) = k + 1 + n by omega]
      exact h2

theorem procVisits_map_snd (k : Nat) (p : Proc) (struct : List Nat) :
    (procVisits k p struct).map Prod.snd
      = (List.range p.num_runs).flatMap (fun _ => struct) := by
  simp [procVisits, runPass, List.map_flatMap, List.map_map, Function.comp_def]

theorem runPass_count (k i : Nat) :
    ∀ s : List Nat, (runPass k s).count (k, i) = s.count i := by
  intro s
  induction s with
  | nil => rfl
  | cons a s ih =>
    simp only [runPass] at ih
    simp [runPass, List.count_cons, ih, Prod.ext_iff]

theorem procVisits_count (k : Nat) (p : Proc) (struct : List Nat) (i : Nat) :
    (procVisits k p struct).count (k, i) = p.num_runs * struct.count i := by
  rw [procVisits]
  induction p.num_runs with
  | zero => simp
  | succ n ih =>
    rw [List.range_succ, List.flatMap_append, List.count_append, ih]
    simp [runPass_count, Nat.succ_mul]

theorem processTraceAux_count :
    ∀ (ps : List Proc) (k pidx : Nat) (p : Proc) (struct : List Nat) (i : Nat),
    ps[pidx]? = some p →
    (processTraceAux k ps struct).count (k + pidx, i)
      = p.num_runs * struct.count i := by
  intro ps
  induction ps with
  | nil => intro k pidx p struct i hp; simp at hp
  | cons q ps ih =>
    intro k pidx p struct i hp
    rw [processTraceAux, List.count_append]
    cases pidx with
    | zero =>
      simp only [List.getElem?_cons_zero, Option.some.injEq] at hp
      subst hp
      have h2 : (processTraceAux (k + 1) ps struct).count (k + 0, i) = 0 := by
        apply List.count_eq_zero.mpr
        intro hmem
        have := processTraceAux_fst_ge ps (k + 1) struct (k + 0, i) hmem
        simp at this
      rw [h2, Nat.add_zero, Nat.add_zero, procVisits_count]
    | succ n =>
      simp only [List.getElem?_cons_succ] at hp
      have h1 : (procVisits k q struct).count (k + (n + 1), i) = 0 := by
        apply List.count_eq_zero.mpr
        intro hmem
        have := procVisits_fst_eq k q struct _ hmem
        simp at this
      rw [h1, Nat.zero_add]
      rw [show k + (n + 1) = k + 1 + n by omega]
      exact ih (k + 1) n p struct i hp

theorem processTraceAux_pairwise :
    ∀ (ps : List Proc) (k : Nat) (struct : List Nat),
    (processTraceAux k ps struct).Pairwise (fun a b => a.1 ≤ b.1) := by
  intro ps
  induction ps with
  | nil => intro k struct; simp [processTraceAux]
  | cons p ps ih =>
    intro k struct
    rw [processTraceAux]
    apply List.pairwise_append.mpr
    refine ⟨?_, ih (k + 1) struct, ?_⟩
    · apply List.pairwise_of_forall_mem_list
      intro a ha b hb
      rw [procVisits_fst_eq k p struct a ha, procVisits_fst_eq k p struct b hb]
    · intro a ha b hb
      rw [procVisits_fst_eq k p struct a ha]
      exact le_trans (Nat.le_succ k) (processTraceAux_fst_ge ps (k + 1) struct b hb)

/-- C8: the visit trace of `Chirun.process` runs the processors in pipeline
order (processor indices are monotone along the trace), and each processor at
index `pidx` performs `num_runs` full passes over the top-level structure:
the events of that processor, projected to item ids, are `num_runs`
concatenated copies of the structure in its declared order, and when the
structure has no duplicate ids each item is visited exactly `num_runs` times
by that processor. -/
theorem process_trace_runs :
    ∀ (procs : List Proc) (struct : List Nat),
    (processTrace procs struct).Pairwise (fun a b => a.1 ≤ b.1)
    ∧ ∀ pidx p, procs[pidx]? = some p →
      ((processTrace procs struct).filter (fun e => e.1 == pidx)).map Prod.snd
        = (List.range p.num_runs).flatMap (fun _ => struct)
      ∧ (struct.Nodup → ∀ i ∈ struct,
          (processTrace procs struct).count (pidx, i) = p.num_runs) := by
  intro procs struct
  refine ⟨processTraceAux_pairwise procs 0 struct, ?_⟩
  intro pidx p hp
  constructor
  · have h1 := processTraceAux_filter_eq procs 0 pidx p struct hp
    rw [Nat.zero_add] at h1
    rw [processTrace, h1]
    exact procVisits_map_snd pidx p struct
  · intro hnd i hi
    have h1 := processTraceAux_count procs 0 pidx p struct i hp
    rw [Nat.zero_add] at h1
    rw [processTrace, h1, List.count_eq_one_of_mem hnd hi, Nat.mul_one]

/-- C8 witness: in the pipeline whose PDF processor declares three runs, the
PDF processor (index 2) visits item 0 of the two-item structure exactly three
times. -/
theorem process_trace_runs_witness :
    (processor_classes 3)[2]? = some { name := ("pdf".toList), num_runs := 3 }
    ∧ (processTrace (processor_classes 3) [0, 1]).count (2, 0) = 3 :=
  ⟨rfl,
   ((process_trace_runs (processor_classes 3) [0, 1]).2 2
     { name := ("pdf".toList), num_runs := 3 } rfl).2 (by decide) 0 (by decide)⟩

/-- The out_path rule as the claim states it, for the variants it covers:
one level for a Part, else `[parent.slug, slug]` with a parent and `[slug]`
without. -/
def claimedOutPath (h : Heap) (i : Nat) : List Str :=
  let n := nodeAt h i
  if n.ty = IType.part then [slugOf n]
  else
    match n.parent with
    | some p => [slugOf (nodeAt h p), slugOf n]
    | none => [slugOf n]

/-- A top-level Chapter titled `Intro`. -/
def hChapterIntro : Heap :=
  [{ ty := IType.chapter, title := ("Intro".toList), source := [],
     hidden := false, parent := none, content := [] }]

/-- A Part titled `Unit 1` with a Chapter titled `Intro` under it. -/
def hUnitChapter : Heap :=
  [{ ty := IType.part, title := ("Unit 1".toList), source := [],
     hidden := false, parent := none, content := [1] },
   { ty := IType.chapter, title := ("Intro".toList), source := [],
     hidden := false, parent := some 0, content := [] }]

/-- C4 (amended): for every item other than an Introduction, `out_path`
follows the claimed rule — `[slug]` without a parent, `[parent.slug, slug]`
with one, and always `[slug]` for a Part — and the two concrete examples
hold: a top-level Chapter titled `Intro` has out_path `['intro']`, and a
Chapter under the Part `Unit 1` (slug `unit-1`) has out_path
`['unit-1', 'intro']`. -/
theorem out_path_rule_amended :
    (∀ (h : Heap) (i : Nat), ¬(nodeAt h i).ty = IType.introduction →
      out_path h i = claimedOutPath h i)
    ∧ out_path hChapterIntro 0 = [("intro".toList)]
    ∧ out_path hUnitChapter 1 = [("unit-1".toList), ("intro".toList)] := by
  refine ⟨?_, rfl, rfl⟩
  intro h i hty
  cases hn : (nodeAt h i).ty
  case introduction => exact absurd hn hty
  all_goals simp [out_path, claimedOutPath, hn]

/-- C4 witness: the amended out_path rule applied to the chapter of
`hUnitChapter`. -/
theorem out_path_rule_amended_witness :
    ¬(nodeAt hUnitChapter 1).ty = IType.introduction
    ∧ out_path hUnitChapter 1 = claimedOutPath hUnitChapter 1 :=
  ⟨by decide, (out_path_rule_amended.1 hUnitChapter 1 (by decide))⟩

/-- C3 (amended): with web root `/base/code/`, relativizing the
root-prefixed URL written without its leading slash, `base/code/foo/bar.html`,
for any item two levels deep strips the root and prepends one `../` (levels
is out-path depth minus one); and re-absolutizing the stripped fragment
`foo/bar.html` in absolute mode for the same root yields
`/base/code/foo/bar.html`, carrying exactly one copy of the root prefix. -/
theorem make_relative_url_roundtrip_amended :
    (∀ (h : Heap) (i : Nat), (out_path h i).length = 2 →
      make_relative_url ctxRel h i ("base/code/foo/bar.html".toList)
        = ("../foo/bar.html".toList))
    ∧ make_relative_url ctxAbs hPartChapter 1 ("foo/bar.html".toList)
        = ("/base/code/foo/bar.html".toList) := by
  refine ⟨?_, rfl⟩
  intro h i hl
  simp only [make_relative_url, get_web_root]
  rw [hl]
  decide

/-- C3 witness: the amended relativization applied to the two-level chapter
of `hPartChapter`. -/
theorem make_relative_url_roundtrip_amended_witness :
    (out_path hPartChapter 1).length = 2
    ∧ make_relative_url ctxRel hPartChapter 1 ("base/code/foo/bar.html".toList)
        = ("../foo/bar.html".toList) :=
  ⟨by decide, make_relative_url_roundtrip_amended.1 hPartChapter 1 (by decide)⟩

theorem dget_dset_self : ∀ (d : YDict) (k : Str) (v : YVal),
    dget (dset d k v) k = some v := by
  intro d k v
  induction d with
  | nil => simp [dset, dget]
  | cons kv d ih =>
    obtain ⟨k1, v1⟩ := kv
    by_cases hk : k1 = k
    · simp [dset, dget, hk]
    · simp [dset, dget, hk, ih]

theorem dget_dset_ne : ∀ (d : YDict) (k1 k : Str) (v : YVal), ¬k1 = k →
    dget (dset d k1 v) k = dget d k := by
  intro d k1 k v hne
  induction d with
  | nil => simp [dset, dget, hne]
  | cons kv d ih =>
    obtain ⟨ka, va⟩ := kv
    by_cases hk : ka = k1
    · subst hk
      simp [dset, dget, hne]
    · by_cases hk2 : ka = k
      · have h3 : ¬k = k1 := fun hc => hne hc.symm
        simp [dset, dget, hk, hk2, h3]
      · simp [dset, dget, hk, hk2, ih]

theorem dget_eq_none_of_not_mem : ∀ (d : YDict) (k : Str),
    k ∉ d.map Prod.fst → dget d k = none := by
  intro d k
  induction d with
  | nil => intro _; rfl
  | cons kv d ih =>
    obtain ⟨ka, va⟩ := kv
    intro hmem
    simp only [List.map_cons, List.mem_cons] at hmem
    push_neg at hmem
    simp [dget, Ne.symm hmem.1, ih hmem.2]

theorem dget_removeKey_self : ∀ (d : YDict) (k : Str),
    (d.map Prod.fst).Nodup → dget (removeKey d k) k = none := by
  intro d k
  induction d with
  | nil => intro _; rfl
  | cons kv d ih =>
    obtain ⟨ka, va⟩ := kv
    intro hnd
    simp only [List.map_cons, List.nodup_cons] at hnd
    by_cases hk : ka = k
    · subst hk
      simp [removeKey, dget_eq_none_of_not_mem d ka hnd.1]
    · simp [removeKey, dget, hk, ih hnd.2]

theorem dget_removeKey_ne : ∀ (d : YDict) (k1 k : Str), ¬k1 = k →
    dget (removeKey d k1) k = dget d k := by
  intro d k1 k hne
  induction d with
  | nil => rfl
  | cons kv d ih =>
    obtain ⟨ka, va⟩ := kv
    by_cases hk : ka = k1
    · subst hk
      simp [removeKey, dget, hne]
    · by_cases hk2 : ka = k
      · subst hk2
        simp [removeKey, dget, hk]
      · simp [removeKey, dget, hk, hk2, ih]

theorem keys_removeKey_sublist : ∀ (d : YDict) (k : Str),
    ((removeKey d k).map Prod.fst).Sublist (d.map Prod.fst) := by
  intro d k
  induction d with
  | nil => simp [removeKey]
  | cons kv d ih =>
    obtain ⟨ka, va⟩ := kv
    by_cases hk : ka = k
    · simp [removeKey, hk]
    · simp only [removeKey, if_neg hk, List.map_cons]
      exact List.Sublist.cons₂ ka ih

theorem keys_dset : ∀ (d : YDict) (k : Str) (v : YVal),
    (dset d k v).map Prod.fst
      = if k ∈ d.map Prod.fst then d.map Prod.fst else d.map Prod.fst ++ [k] := by
  intro d k v
  induction d with
  | nil => simp [dset]
  | cons kv d ih =>
    obtain ⟨ka, va⟩ := kv
    by_cases hk : ka = k
    · subst hk
      simp [dset]
    · have hne : ¬k = ka := fun hc => hk hc.symm
      simp only [dset, if_neg hk, List.map_cons, ih, List.mem_cons]
      by_cases hmem : k ∈ d.map Prod.fst
      · simp [hmem]
      · simp [hmem, hne]

theorem nodup_keys_dset (d : YDict) (k : Str) (v : YVal)
    (hnd : (d.map Prod.fst).Nodup) : ((dset d k v).map Prod.fst).Nodup := by
  rw [keys_dset]
  by_cases hmem : k ∈ d.map Prod.fst
  · rw [if_pos hmem]
    exact hnd
  · rw [if_neg hmem]
    rw [List.nodup_append]
    refine ⟨hnd, List.nodup_singleton k, ?_⟩
    intro x hx hxk
    rw [List.mem_singleton] at hxk
    subst hxk
    exact hmem hx

theorem pyDelKey_ok (d : YDict) (k : Str) (m : YDict) :
    pyDelKey d k = .ok m → m = removeKey d k := by
  unfold pyDelKey
  split
  · intro hh
    injection hh with hh
    exact hh.symm
  · intro hh
    exact absurd hh (by simp)

/-- C10: when `save_manifest` completes on a well-formed config dict (unique
keys) it has removed the `args` and `static_dir` entries, replaced the
`structure` entry by the realized item tree, and left the value of every
other key unchanged.  The Python method mutates `self.config` in place
(`manifest` aliases it); the in-place effect is modelled as the mapping the
method leaves behind. -/
theorem save_manifest_config_effect :
    ∀ (config : YDict) (h : Heap) (struct : List Nat) (m : YDict),
    (config.map Prod.fst).Nodup →
    save_manifest config h struct = .ok m →
    dget m ("args".toList) = none
    ∧ dget m ("static_dir".toList) = none
    ∧ dget m ("structure".toList) = some (realizedStructure h struct)
    ∧ ∀ k, ¬k = ("args".toList) → ¬k = ("static_dir".toList) →
        ¬k = ("structure".toList) → dget m k = dget config k := by
  intro config h struct m hnd heq
  simp only [save_manifest] at heq
  cases hd1 : pyDelKey (dset config ("structure".toList) (realizedStructure h struct))
      ("args".toList) with
  | error e =>
    simp only [hd1] at heq
    exact absurd heq (by simp)
  | ok m1 =>
    simp only [hd1] at heq
    cases hd2 : pyDelKey m1 ("static_dir".toList) with
    | error e =>
      simp only [hd2] at heq
      exact absurd heq (by simp)
    | ok m2 =>
      simp only [hd2, Except.ok.injEq] at heq
      subst heq
      have e1 := pyDelKey_ok _ _ _ hd1
      have e2 := pyDelKey_ok _ _ _ hd2
      subst e1
      subst e2
      have hnd1 : ((dset config ("structure".toList)
          (realizedStructure h struct)).map Prod.fst).Nodup :=
        nodup_keys_dset config _ _ hnd
      have hnd2 : ((removeKey (dset config ("structure".toList)
          (realizedStructure h struct)) ("args".toList)).map Prod.fst).Nodup :=
        (keys_removeKey_sublist _ _).nodup hnd1
      refine ⟨?_, ?_, ?_, ?_⟩
      · rw [dget_removeKey_ne _ _ _ (by decide)]
        exact dget_removeKey_self _ _ hnd1
      · exact dget_removeKey_self _ _ hnd2
      · rw [dget_removeKey_ne _ _ _ (by decide), dget_removeKey_ne _ _ _ (by decide)]
        exact dget_dset_self _ _ _
      · intro k hka hks hkst
        rw [dget_removeKey_ne _ _ _ (fun hc => hks hc.symm)]
        rw [dget_removeKey_ne _ _ _ (fun hc => hka hc.symm)]
        exact dget_dset_ne _ _ _ _ (fun hc => hkst hc.symm)

/-- A concrete course config with `args`, `static_dir`, a `structure` entry
and one further key. -/
def cfgW : YDict :=
  [(("title".toList), YVal.s ("T".toList)),
   (("args".toList), YVal.null),
   (("static_dir".toList), YVal.s ("static".toList)),
   (("structure".toList), YVal.null)]

/-- The config `save_manifest` leaves behind from `cfgW`. -/
def cfgW2 : YDict :=
  [(("title".toList), YVal.s ("T".toList)),
   (("structure".toList), realizedStructure hMd [0])]

/-- C10 witness: the manifest frame effect applied to the concrete config
`cfgW`. -/
theorem save_manifest_config_effect_witness :
    (cfgW.map Prod.fst).Nodup
    ∧ save_manifest cfgW hMd [0] = .ok cfgW2
    ∧ dget cfgW2 ("args".toList) = none
    ∧ dget cfgW2 ("title".toList) = dget cfgW ("title".toList) :=
  ⟨by decide, rfl,
   (save_manifest_config_effect cfgW hMd [0] cfgW2 (by decide) rfl).1,
   (save_manifest_config_effect cfgW hMd [0] cfgW2 (by decide) rfl).2.2.2
     ("title".toList) (by decide) (by decide) (by decide)⟩

/-- The parent/child consistency invariant: whenever a heap node lists `j`
among its children, node `j` exists and its back-reference points at it. -/
def heapInv (h : Heap) : Prop :=
  ∀ (i : Nat) (n : Node), h[i]? = some n →
    ∀ j ∈ n.content, ∃ m : Node, h[j]? = some m ∧ m.parent = some i

/-- What `loadItemH` guarantees about the node it allocates for record `d`
at index `r`: it exists, its parent is the parent argument, its type is the
one registered for the record discriminant, and its scalar fields follow the
`data.get` defaults. -/
def loadedNode (h : Heap) (p : Option Nat) (d : ItemData) (r : Nat) : Prop :=
  ∃ n : Node, h[r]? = some n ∧ n.parent = p ∧ typeOfString d.ty = .ok n.ty
    ∧ n.title = d.title.getD (defaultTitle n.ty)
    ∧ n.source = d.source.getD []
    ∧ n.hidden = d.hidden.getD false

mutual
theorem loadItemH_spec (d : ItemData) :
    ∀ (h : Heap) (p : Option Nat) (h2 : Heap) (r : Nat),
    loadItemH h d p = .ok (h2, r) →
    (∀ i, i < h.length → h2[i]? = h[i]?)
    ∧ r = h.length ∧ h.length < h2.length
    ∧ loadedNode h2 p d r
    ∧ (heapInv h → heapInv h2) := by
  cases d with
  | mk tys ti so hid content =>
    intro h p h2 r hld
    cases hty : typeOfString tys with
    | error e =>
      rw [loadItemH] at hld
      simp only [hty] at hld
      exact absurd hld (by simp)
    | ok ty =>
      rw [loadItemH] at hld
      simp only [hty] at hld
      split at hld
      · exact absurd hld (by simp)
      · rename_i h1 cids heq
        simp only [Except.ok.injEq, Prod.mk.injEq] at hld
        obtain ⟨hh2, hr⟩ := hld
        subst hh2
        subst hr
        obtain ⟨presA, hlenA, rngA, faA, parA, invA⟩ :=
          loadItemsH_spec content (h ++ [mkNode ty ti so hid p []]) (some h.length)
            h1 cids heq
        have hlen0 : (h ++ [mkNode ty ti so hid p []]).length = h.length + 1 := by
          simp
        rw [hlen0] at presA hlenA rngA
        refine ⟨?_, rfl, ?_, ?_, ?_⟩
        · intro i hi
          rw [List.getElem?_set_ne (by omega)]
          rw [presA i (by omega)]
          exact List.getElem?_append_left hi
        · rw [List.length_set]
          omega
        · refine ⟨mkNode ty ti so hid p cids, ?_, rfl, hty, rfl, rfl, rfl⟩
          exact List.getElem?_set_self (by omega)
        · intro hinv
          have hinv0 : heapInv (h ++ [mkNode ty ti so hid p []]) := by
            intro i n hget j hj
            rcases Nat.lt_trichotomy i h.length with hi | hi | hi
            · rw [List.getElem?_append_left hi] at hget
              obtain ⟨m, hm, hmp⟩ := hinv i n hget j hj
              have hjlt : j < h.length := (List.getElem?_eq_some.mp hm).1
              exact ⟨m, by rw [List.getElem?_append_left hjlt]; exact hm, hmp⟩
            · subst hi
              rw [List.getElem?_concat_length] at hget
              injection hget with hget
              subst hget
              exact absurd hj (by simp [mkNode])
            · rw [List.getElem?_eq_none (by simp; omega)] at hget
              exact absurd hget (by simp)
          have hinv1 := invA hinv0
          intro i n hget j hj
          by_cases hi : i = h.length
          · subst hi
            rw [List.getElem?_set_self (by omega)] at hget
            injection hget with hget
            subst hget
            have hj2 : j ∈ cids := hj
            obtain ⟨hjlo, hjhi⟩ := rngA j hj2
            obtain ⟨m, hm, hmp⟩ := parA j hj2
            refine ⟨m, ?_, hmp⟩
            rw [List.getElem?_set_ne (by omega)]
            exact hm
          · rw [List.getElem?_set_ne (fun hc => hi hc.symm)] at hget
            obtain ⟨m, hm, hmp⟩ := hinv1 i n hget j hj
            by_cases hji : j = h.length
            · subst hji
              have hmn0 : h1[h.length]? = some (mkNode ty ti so hid p []) := by
                rw [presA h.length (by omega)]
                exact List.getElem?_concat_length _ _
              have hmeq : m = mkNode ty ti so hid p [] := by
                have := hm.symm.trans hmn0
                injection this
              refine ⟨mkNode ty ti so hid p cids, ?_, ?_⟩
              · exact List.getElem?_set_self (by omega)
              · have : (mkNode ty ti so hid p cids).parent
                    = (mkNode ty ti so hid p []).parent := rfl
                rw [this, ← hmeq]
                exact hmp
            · refine ⟨m, ?_, hmp⟩
              rw [List.getElem?_set_ne (fun hc => hji hc.symm)]
              exact hm

theorem loadItemsH_spec (ds : List ItemData) :
    ∀ (h : Heap) (p : Option Nat) (h2 : Heap) (rs : List Nat),
    loadItemsH h ds p = .ok (h2, rs) →
    (∀ i, i < h.length → h2[i]? = h[i]?)
    ∧ h.length ≤ h2.length
    ∧ (∀ r ∈ rs, h.length ≤ r ∧ r < h2.length)
    ∧ List.Forall₂ (loadedNode h2 p) ds rs
    ∧ (∀ r ∈ rs, ∃ n : Node, h2[r]? = some n ∧ n.parent = p)
    ∧ (heapInv h → heapInv h2) := by
  cases ds with
  | nil =>
    intro h p h2 rs hls
    simp only [loadItemsH, Except.ok.injEq, Prod.mk.injEq] at hls
    obtain ⟨hh, hrs⟩ := hls
    subst hh
    subst hrs
    exact ⟨fun i _ => rfl, le_refl _, by simp, List.Forall₂.nil, by simp,
      fun hv => hv⟩
  | cons d rest =>
    intro h p h2 rs hls
    simp only [loadItemsH] at hls
    split at hls
    · exact absurd hls (by simp)
    · rename_i h1 r heq1
      split at hls
      · exact absurd hls (by simp)
      · rename_i h3 rs1 heq2
        simp only [Except.ok.injEq, Prod.mk.injEq] at hls
        obtain ⟨hh, hrs⟩ := hls
        subst hh
        subst hrs
        obtain ⟨presA, hrA, hlenA, nodeA, invA⟩ := loadItemH_spec d h p h1 r heq1
        obtain ⟨presB, hlenB, rngB, faB, parB, invB⟩ :=
          loadItemsH_spec rest h1 p h3 rs1 heq2
        refine ⟨?_, ?_, ?_, ?_, ?_, ?_⟩
        · intro i hi
          rw [presB i (by omega), presA i hi]
        · omega
        · intro r2 hr2
          rcases List.mem_cons.mp hr2 with hr2 | hr2
          · subst hr2
            constructor
            · omega
            · omega
          · obtain ⟨hlo, hhi⟩ := rngB r2 hr2
            constructor
            · omega
            · exact hhi
        · refine List.Forall₂.cons ?_ faB
          obtain ⟨n, hn, hrest⟩ := nodeA
          refine ⟨n, ?_, hrest⟩
          rw [presB r (by omega)]
          exact hn
        · intro r2 hr2
          rcases List.mem_cons.mp hr2 with hr2 | hr2
          · subst hr2
            obtain ⟨n, hn, hp2, -⟩ := nodeA
            refine ⟨n, ?_, hp2⟩
            rw [presB r2 (by omega)]
            exact hn
          · exact parB r2 hr2
        · intro hinv
          exact invB (invA hinv)
end

theorem nodeAt_of_getElem {h : Heap} {r : Nat} {n : Node} (hn : h[r]? = some n) :
    nodeAt h r = n := by
  simp [nodeAt, hn]

theorem typeOfString_intro_iff (s : Str) :
    typeOfString s = .ok IType.introduction ↔ s = "introduction".toList := by
  constructor
  · intro hh
    unfold typeOfString at hh
    split_ifs at hh with h1 h2 h3 h4 h5 h6
    · exact h1
    all_goals simp_all
  · intro hh
    subst hh
    rfl

theorem countP_eq_of_forall₂ {α β : Type} {R : α → β → Prop} {p : β → Bool}
    {q : α → Bool} (H : ∀ a b, R a b → p b = q a) :
    ∀ {as : List α} {bs : List β}, List.Forall₂ R as bs →
      bs.countP p = as.countP q := by
  intro as bs hf
  induction hf with
  | nil => rfl
  | cons hab htl ih =>
    rw [List.countP_cons, List.countP_cons, ih, H _ _ hab]

/-- Count of introduction-typed records among the declarative input. -/
def introRecCount (recs : List ItemData) : Nat :=
  recs.countP (fun d => decide (d.ty = "introduction".toList))

/-- C9: parent/child consistency is an invariant of `load_item`: in every
heap a top-level `loadItemH` call (no parent argument) produces, the loaded
root has parent `none`, and every element of any node's content list carries
a parent back-reference equal to that node. -/
theorem load_item_parent_invariant :
    ∀ (d : ItemData) (h : Heap) (r : Nat),
    loadItemH [] d none = .ok (h, r) →
    (∃ n : Node, h[r]? = some n ∧ n.parent = none)
    ∧ heapInv h := by
  intro d h r hl
  obtain ⟨-, -, -, ⟨n, hn, hp, -⟩, hinv⟩ := loadItemH_spec d [] none h r hl
  refine ⟨⟨n, hn, hp⟩, hinv ?_⟩
  intro i n2 hget j hj
  simp at hget

/-- A part record with one chapter record under it. -/
def dW9 : ItemData :=
  .mk ("part".toList) none none none [.mk ("chapter".toList) none none none []]

/-- The heap `loadItemH` builds from `dW9`. -/
def hW9 : Heap :=
  [{ ty := IType.part, title := ("Untitled part".toList), source := [],
     hidden := false, parent := none, content := [1] },
   { ty := IType.chapter, title := ("Untitled chapter".toList), source := [],
     hidden := false, parent := some 0, content := [] }]

/-- C9 witness: the parent invariant applied to the concrete part/chapter
record `dW9`. -/
theorem load_item_parent_invariant_witness :
    loadItemH [] dW9 none = .ok (hW9, 0)
    ∧ (∃ n : Node, hW9[0]? = some n ∧ n.parent = none)
    ∧ heapInv hW9 :=
  ⟨rfl, (load_item_parent_invariant dW9 hW9 0 rfl).1,
   (load_item_parent_invariant dW9 hW9 0 rfl).2⟩

/-- C2 (amended): after `load_structure` completes, the number of
introduction items in the top-level structure is `max 1 c`, where `c` is the
number of introduction records in the input — so at least one introduction
item always exists and it is reachable by iterating the top-level ids, but it
is exactly one only when the input carries at most one introduction record;
and when the input carries none, the loader appends (at the end, not the
front) a synthesized introduction with default data: title `index`, no
parent. -/
theorem load_structure_introduction_invariant :
    ∀ (recs : List ItemData) (h : Heap) (ids : List Nat),
    load_structure recs = .ok (h, ids) →
    introCount h ids = max 1 (introRecCount recs)
    ∧ (∃ i ∈ ids, (nodeAt h i).ty = IType.introduction)
    ∧ (introRecCount recs = 0 →
        ∃ ids0 j, ids = ids0 ++ [j] ∧ introCount h ids0 = 0
          ∧ (nodeAt h j).ty = IType.introduction
          ∧ (nodeAt h j).title = ("index".toList)
          ∧ (nodeAt h j).parent = none) := by
  intro recs h ids hls
  simp only [load_structure] at hls
  split at hls
  · exact absurd hls (by simp)
  · rename_i h1 ids1 heq1
    obtain ⟨presA, hlenA, rngA, faA, parA, invA⟩ :=
      loadItemsH_spec recs [] none h1 ids1 heq1
    have hcnt : introCount h1 ids1 = introRecCount recs := by
      apply countP_eq_of_forall₂ ?_ faA
      intro d r hdr
      obtain ⟨n, hn, -, hty, -⟩ := hdr
      rw [nodeAt_of_getElem hn]
      have hiff : (n.ty = IType.introduction) ↔ (d.ty = "introduction".toList) := by
        constructor
        · intro hcase
          exact (typeOfString_intro_iff d.ty).mp (by rw [hty, hcase])
        · intro hcase
          have h5 := (typeOfString_intro_iff d.ty).mpr hcase
          rw [hty] at h5
          simpa using h5
      simp [hiff]
    split at hls
    · rename_i hany
      simp only [Except.ok.injEq, Prod.mk.injEq] at hls
      obtain ⟨hh, hids⟩ := hls
      subst hh
      subst hids
      obtain ⟨i, hi, hidx⟩ := List.any_eq_true.mp hany
      have hity : (nodeAt h1 i).ty = IType.introduction := of_decide_eq_true hidx
      have hpos : 0 < introCount h1 ids1 := by
        apply List.countP_pos_iff.mpr
        exact ⟨i, hi, by simp [hity]⟩
      refine ⟨?_, ⟨i, hi, hity⟩, ?_⟩
      · rw [hcnt] at hpos ⊢
        omega
      · intro h0
        rw [hcnt] at hpos
        omega
    · rename_i hany
      split at hls
      · exact absurd hls (by simp)
      · rename_i h2 j heq2
        simp only [Except.ok.injEq, Prod.mk.injEq] at hls
        obtain ⟨hh, hids⟩ := hls
        subst hh
        subst hids
        obtain ⟨presB, hjB, hlenB, nodeB, invB⟩ :=
          loadItemH_spec introData h1 none h2 j heq2
        obtain ⟨n, hn, hpn, htyn, htitle, -, -⟩ := nodeB
        have hnty : n.ty = IType.introduction := by
          have : typeOfString ("introduction".toList) = .ok IType.introduction := rfl
          rw [show introData.ty = ("introduction".toList) from rfl] at htyn
          rw [this] at htyn
          injection htyn with htyn
          exact htyn.symm
        have hnat : nodeAt h2 j = n := nodeAt_of_getElem hn
        have hnot : ∀ i ∈ ids1, ¬is_index (nodeAt h1 i) = true :=
          List.any_eq_false.mp (by simpa using hany)
        have hstable : ∀ i ∈ ids1, nodeAt h2 i = nodeAt h1 i := by
          intro i hi
          obtain ⟨-, hihi⟩ := rngA i hi
          rw [nodeAt, nodeAt, presB i hihi]
        have hz1 : introCount h1 ids1 = 0 := by
          apply List.countP_eq_zero.mpr
          intro i hi
          have := hnot i hi
          simp only [is_index] at this
          simpa using this
        have hz2 : introCount h2 ids1 = 0 := by
          rw [introCount, List.countP_congr ?_]
          · exact hz1
          · intro i hi
            rw [hstable i hi]
        have hc0 : introRecCount recs = 0 := by rw [← hcnt]; exact hz1
        constructor
        · rw [introCount, List.countP_append]
          rw [show (ids1.countP fun i => decide ((nodeAt h2 i).ty = IType.introduction)) = 0 from hz2]
          simp [hnat, hnty, hc0]
        · constructor
          · exact ⟨j, by simp, by rw [hnat]; exact hnty⟩
          · intro _
            refine ⟨ids1, j, rfl, hz2, by rw [hnat]; exact hnty, ?_, ?_⟩
            · rw [hnat, htitle, hnty]
              rfl
            · rw [hnat, hpn]

/-- C2 witness: the introduction invariant applied to the concrete
part/chapter structure, whose input carries no introduction record. -/
theorem load_structure_introduction_invariant_witness :
    introCount hPartChapter [0, 2] = max 1 (introRecCount recsPartChapter)
    ∧ (∃ i ∈ [0, 2], (nodeAt hPartChapter i).ty = IType.introduction)
    ∧ introRecCount recsPartChapter = 0 :=
  ⟨(load_structure_introduction_invariant recsPartChapter hPartChapter [0, 2] rfl).1,
   (load_structure_introduction_invariant recsPartChapter hPartChapter [0, 2] rfl).2.1,
   rfl⟩
